import Mathlib

/-
Verification of the node execution core of the assemply dataflow engine
(src/assemply/node.py): the Zip-Join consumption loop, the output
broadcasters (QueueManager / QueuesManager), the nested output-closing
scopes of SubrutineNode, and the constructor validation.

Values flowing through the pipeline are modelled by the inductive PyVal
(an opaque atom or a tuple of values); the observable effects of a node
run are a trace of put/close events on named channels together with an
optional escaping error.
-/

namespace Assemply

/-- A runtime value: either an opaque non-iterable atom or a tuple. -/
inductive PyVal where
  | atom : Nat → PyVal
  | tup : List PyVal → PyVal
  deriving Inhabited

/-- Observable channel effects of a node run: a value pushed onto a named
output channel, or the closing of a named output channel. -/
inductive Event where
  | put : String → PyVal → Event
  | close : String → Event

/-- Errors that can escape a node run: a Python-level TypeError (broadcasting
a non-iterable over several outputs, or calling the output-scope helper with
no output name), or an error raised by the user transformation. -/
inductive NodeError (ε : Type) where
  | typeError : NodeError ε
  | transform : ε → NodeError ε

/-- Combine a list of optional values into an optional list: some exactly when
every entry is some, keeping order. Helper for the Zip-Join model. -/
def allSome {α : Type} : List (Option α) → Option (List α)
  | [] => some []
  | none :: _ => none
  | some a :: rest => (allSome rest).map (a :: ·)

/-- Modelled from the spec: one lockstep round of Zip-Join over the remaining
input sequences — the head of every sequence, or none as soon as any
sequence is exhausted. (The Zip-Join azip lives in the repository module
assemply/atools, which is not present under src/; spec section 4.1.) -/
def headsAll {α : Type} (ls : List (List α)) : Option (List α) :=
  allSome (ls.map List.head?)

/-- Modelled from the spec: the rounds of Zip-Join once at least one input
sequence exists, driven by structural recursion on the first sequence. Each
produced tuple holds the next value of every input, and production stops the
moment any input is exhausted; partially pulled values of an incomplete
round are discarded. -/
def azipCons {α : Type} : List α → List (List α) → List (List α)
  | [], _ => []
  | a :: as, rest =>
    match headsAll rest with
    | none => []
    | some hs => (a :: hs) :: azipCons as (rest.map List.tail)

/-- Modelled from the spec: the Zip-Join operator azip of assemply/atools
(not present under src/). Given N ordered input sequences it produces the
sequence of N-tuples obtained by advancing all inputs in lockstep, ending as
soon as any input is exhausted; for N = 0 the produced sequence is empty
(spec section 4.1). -/
def azip {α : Type} : List (List α) → List (List α)
  | [] => []
  | l :: rest => azipCons l rest

/-- The output broadcaster of src/assemply/node.py, selected at construction:
QueueManager when exactly one output is declared (its put pushes the produced
value unchanged onto the single output), QueuesManager otherwise (its put
iterates zip(outputs, r), pairing output channels with tuple elements — with
Python zip truncation — and raising TypeError when r is not iterable). -/
def broadcast {ε : Type} : List String → PyVal → Except (NodeError ε) (List Event)
  | [o], r => .ok [Event.put o r]
  | outs, .tup vs => .ok ((outs.zip vs).map fun p => Event.put p.1 p.2)
  | _, .atom _ => .error .typeError

/-- SubrutineNode._in of src/assemply/node.py: iterate the Zip-Join of the
input channels; for every joined tuple call the transformation f on it and
broadcast the produced value through the queue manager. Returns the
accumulated put events and the first escaping error, if any. -/
def runInGo {ε : Type} (f : List PyVal → Except ε PyVal) (outs : List String) :
    List (List PyVal) → List Event × Option (NodeError ε)
  | [] => ([], none)
  | t :: ts =>
    match f t with
    | .error e => ([], some (.transform e))
    | .ok d =>
      match broadcast outs d with
      | .error err => ([], some err)
      | .ok evs =>
        let p := runInGo f outs ts
        (evs ++ p.1, p.2)

/-- SubrutineNode._with_out of src/assemply/node.py: nested scoped
acquisition of the output channels in declared order. Modelled from the
spec for the channel class (not present under src/): leaving the scope of
an output channel — normally or on error — closes that channel, so the
close events come after the body's events, innermost (last declared)
output first, and an escaping error is preserved. -/
def withOutGo (body : List Event × Option α) : String → List String → List Event × Option α
  | o, [] => (body.1 ++ [Event.close o], body.2)
  | o, o2 :: os =>
    let p := withOutGo body o2 os
    (p.1 ++ [Event.close o], p.2)

/-- SubrutineNode.run of src/assemply/node.py: run the nested output scopes
around the consumption loop. Calling _with_out(*outputs) with an empty
output list raises a Python TypeError (missing required positional
argument) before anything is consumed, produced or closed. -/
def nodeRun {ε : Type} (f : List PyVal → Except ε PyVal) (ins : List (List PyVal))
    (outs : List String) : List Event × Option (NodeError ε) :=
  match outs with
  | [] => ([], some .typeError)
  | o :: os => withOutGo (runInGo f outs (azip ins)) o os

/-- Construction error of SubrutineNode.__init__: the KeyError of a missing
declared name is re-raised as an AttributeError. -/
inductive InitError where
  | attributeError : InitError
  deriving DecidableEq

/-- The dict comprehension { k: kwargs[k] for k in names } of
SubrutineNode.__init__: resolve every declared name in the kwargs mapping,
in declared order; none as soon as one name is absent (KeyError). -/
def lookupAll {Q : Type} : List String → List (String × Q) → Option (List (String × Q))
  | [], _ => some []
  | k :: ks, kwargs =>
    match kwargs.lookup k with
    | none => none
    | some v => (lookupAll ks kwargs).map ((k, v) :: ·)

/-- SubrutineNode.__init__ of src/assemply/node.py: build the input and
output name-to-channel mappings from the kwargs; a missing declared name
raises AttributeError and the node is not created. -/
def initNode {Q : Type} (inputs outputs : List String) (kwargs : List (String × Q)) :
    Except InitError (List (String × Q) × List (String × Q)) :=
  match lookupAll inputs kwargs with
  | none => .error .attributeError
  | some ins =>
    match lookupAll outputs kwargs with
    | none => .error .attributeError
    | some outs => .ok (ins, outs)

/-- The values pushed onto one named channel of an event trace, in trace
order, close events ignored. -/
def valuesOn (evs : List Event) (q : String) : List PyVal :=
  evs.filterMap fun e =>
    match e with
    | .put q2 v => if q2 = q then some v else none
    | .close _ => none

/-- The result of one loop iteration of SubrutineNode._in on join tuple t:
the transformation applied and its value broadcast, as the events emitted
or the escaping error. -/
def stepResult {ε : Type} (f : List PyVal → Except ε PyVal) (outs : List String)
    (t : List PyVal) : Except (NodeError ε) (List Event) :=
  match f t with
  | .error e => .error (.transform e)
  | .ok d => broadcast outs d

/-- The events emitted by one successful loop iteration (empty on error). -/
def stepEvents {ε : Type} (f : List PyVal → Except ε PyVal) (outs : List String)
    (t : List PyVal) : List Event :=
  match stepResult f outs t with
  | .ok evs => evs
  | .error _ => []

/-- allSome is none as soon as one entry is none. -/
theorem allSome_eq_none_of_mem {α : Type} :
    ∀ {xs : List (Option α)}, none ∈ xs → allSome xs = none := by
  intro xs h
  induction xs with
  | nil => cases h
  | cons x xs ih =>
    cases x with
    | none => rfl
    | some a =>
      have hx : none ∈ xs := by
        cases h with
        | tail _ h => exact h
      simp [allSome, ih hx]

/-- If allSome fails then some entry is none. -/
theorem none_mem_of_allSome_eq_none {α : Type} :
    ∀ {xs : List (Option α)}, allSome xs = none → none ∈ xs := by
  intro xs h
  induction xs with
  | nil => simp [allSome] at h
  | cons x xs ih =>
    cases x with
    | none => exact List.mem_cons_self _ _
    | some a =>
      simp only [allSome, Option.map_eq_none'] at h
      exact List.mem_cons_of_mem _ (ih h)

/-- A successful allSome keeps the length. -/
theorem allSome_length {α : Type} :
    ∀ {xs : List (Option α)} {ys : List α}, allSome xs = some ys → ys.length = xs.length := by
  intro xs
  induction xs with
  | nil =>
    intro ys h
    simp only [allSome, Option.some.injEq] at h
    simp [← h]
  | cons x xs ih =>
    intro ys h
    cases x with
    | none => simp [allSome] at h
    | some a =>
      simp only [allSome, Option.map_eq_some'] at h
      obtain ⟨zs, hzs, rfl⟩ := h
      simp [ih hzs]

/-- allSome succeeds when every entry is some. -/
theorem allSome_isSome {α : Type} :
    ∀ {xs : List (Option α)}, (∀ o ∈ xs, o.isSome) → ∃ ys, allSome xs = some ys := by
  intro xs h
  induction xs with
  | nil => exact ⟨[], rfl⟩
  | cons x xs ih =>
    obtain ⟨a, rfl⟩ := Option.isSome_iff_exists.mp (h x (List.mem_cons_self _ _))
    obtain ⟨ys, hys⟩ := ih fun o ho => h o (List.mem_cons_of_mem _ ho)
    exact ⟨a :: ys, by simp [allSome, hys]⟩

/-- The entries of a successful allSome are the joined entries of the input. -/
theorem allSome_getElem? {α : Type} :
    ∀ {xs : List (Option α)} {ys : List α}, allSome xs = some ys →
      ∀ i : Nat, ys[i]? = (xs[i]?).join := by
  intro xs
  induction xs with
  | nil =>
    intro ys h i
    simp only [allSome, Option.some.injEq] at h
    simp [← h]
  | cons x xs ih =>
    intro ys h i
    cases x with
    | none => simp [allSome] at h
    | some a =>
      simp only [allSome, Option.map_eq_some'] at h
      obtain ⟨zs, hzs, rfl⟩ := h
      cases i with
      | zero => simp
      | succ i => simpa using ih hzs i

/-- Master description of the Zip-Join rounds: the j-th produced tuple is the
combination of the j-th entries of all inputs, defined exactly when every
input has a j-th entry. -/
theorem azipCons_getElem? {α : Type} :
    ∀ (l : List α) (rest : List (List α)) (j : Nat),
      (azipCons l rest)[j]? = allSome (((l :: rest).map fun s => s[j]?)) := by
  intro l
  induction l with
  | nil =>
    intro rest j
    simp [azipCons, allSome]
  | cons a as ih =>
    intro rest j
    cases hh : headsAll rest with
    | none =>
      have hmem : none ∈ rest.map List.head? :=
        none_mem_of_allSome_eq_none hh
      obtain ⟨s, hs, hhead⟩ := List.mem_map.mp hmem
      have hsnil : s = [] := by
        cases s with
        | nil => rfl
        | cons b bs => simp at hhead
      have hmem2 : none ∈ ((a :: as) :: rest).map fun s => s[j]? := by
        refine List.mem_cons_of_mem _ (List.mem_map.mpr ⟨s, hs, ?_⟩)
        simp [hsnil]
      have hlhs : azipCons (a :: as) rest = [] := by
        simp [azipCons, hh]
      rw [hlhs, allSome_eq_none_of_mem hmem2]
      exact List.getElem?_nil
    | some hs =>
      have hh' : allSome (rest.map List.head?) = some hs := hh
      have hlhs : azipCons (a :: as) rest = (a :: hs) :: azipCons as (rest.map List.tail) := by
        simp [azipCons, hh]
      cases j with
      | zero =>
        simp [hlhs, allSome, ← List.head?_eq_getElem?, hh']
      | succ j =>
        rw [hlhs, List.getElem?_cons_succ, ih (rest.map List.tail) j]
        congr 1
        simp [List.map_map, Function.comp, List.getElem?_tail]

/-- The j-th Zip-Join tuple of a nonempty family combines the j-th entries of
all inputs, and exists exactly when they all do. -/
theorem azip_getElem? {α : Type} (l : List α) (rest : List (List α)) (j : Nat) :
    (azip (l :: rest))[j]? = allSome (((l :: rest).map fun s => s[j]?)) :=
  azipCons_getElem? l rest j

/-- Every tuple produced by the Zip-Join has one component per input. -/
theorem azip_mem_length {α : Type} {ls : List (List α)} {t : List α}
    (ht : t ∈ azip ls) : t.length = ls.length := by
  cases ls with
  | nil => cases ht
  | cons l rest =>
    obtain ⟨j, hj⟩ := List.mem_iff_getElem?.mp ht
    rw [azip_getElem?] at hj
    rw [allSome_length hj, List.length_map]

/-- The Zip-Join never outlives any input sequence. -/
theorem azip_length_le {α : Type} {ls : List (List α)} {s : List α}
    (hs : s ∈ ls) : (azip ls).length ≤ s.length := by
  cases ls with
  | nil => simp [azip]
  | cons l rest =>
    by_contra hlt
    push_neg at hlt
    have h1 : (azip (l :: rest))[s.length]? = some ((azip (l :: rest))[s.length]) :=
      List.getElem?_eq_getElem hlt
    rw [azip_getElem?] at h1
    have hmem : none ∈ (l :: rest).map fun u => u[s.length]? :=
      List.mem_map.mpr ⟨s, hs, List.getElem?_eq_none le_rfl⟩
    rw [allSome_eq_none_of_mem hmem] at h1
    cases h1

/-- The Zip-Join of a nonempty family exhausts some input completely. -/
theorem azip_length_attained {α : Type} {ls : List (List α)} (h : ls ≠ []) :
    ∃ s ∈ ls, (azip ls).length = s.length := by
  cases ls with
  | nil => cases h rfl
  | cons l rest =>
    by_contra h2
    push_neg at h2
    have hall : ∀ o ∈ (l :: rest).map fun s => s[(azip (l :: rest)).length]?, o.isSome := by
      intro o ho
      obtain ⟨s, hs, rfl⟩ := List.mem_map.mp ho
      have hle : (azip (l :: rest)).length ≤ s.length := azip_length_le hs
      have hne : (azip (l :: rest)).length ≠ s.length := h2 s hs
      rw [List.getElem?_eq_getElem (lt_of_le_of_ne hle hne)]
      rfl
    obtain ⟨ys, hys⟩ := allSome_isSome hall
    have h1 : (azip (l :: rest))[(azip (l :: rest)).length]? = some ys := by
      rw [azip_getElem?]
      exact hys
    obtain ⟨hlt, -⟩ := List.getElem?_eq_some_iff.mp h1
    exact absurd hlt (lt_irrefl _)

/-- The i-th component of the j-th Zip-Join tuple is the j-th value of the
i-th input sequence. -/
theorem azip_positional {α : Type} {ls : List (List α)} {j i : Nat}
    (hj : j < (azip ls).length) (hi : i < ls.length) :
    ((azip ls).getD j [])[i]? = (ls.getD i [])[j]? := by
  cases ls with
  | nil => cases hi
  | cons l rest =>
    have h1 : (azip (l :: rest))[j]? = some ((azip (l :: rest)).getD j []) := by
      rw [List.getD_eq_getElem _ _ hj]
      exact List.getElem?_eq_getElem hj
    rw [azip_getElem?] at h1
    have h2 := allSome_getElem? h1 i
    rw [List.getElem?_map] at h2
    rw [List.getElem?_eq_getElem hi, ← List.getD_eq_getElem _ [] hi] at h2
    simpa using h2

/-- The nested output scopes append, after the body's events, one close event
per declared output in reverse declared order, and preserve the body's
escaping error. -/
theorem withOutGo_eq {α : Type} (body : List Event × Option α) :
    ∀ (os : List String) (o : String),
      withOutGo body o os = (body.1 ++ ((o :: os).reverse.map Event.close), body.2) := by
  intro os
  induction os with
  | nil => intro o; simp [withOutGo]
  | cons o2 os ih =>
    intro o
    simp [withOutGo, ih o2, List.reverse_cons, List.map_append]

/-- When every loop iteration succeeds, the consumption loop emits the
concatenation of the per-iteration broadcast events, with no error. -/
theorem runInGo_all_ok {ε : Type} (f : List PyVal → Except ε PyVal) (outs : List String) :
    ∀ ts : List (List PyVal),
      (∀ t ∈ ts, ∃ evs, stepResult f outs t = .ok evs) →
      runInGo f outs ts = (ts.flatMap (stepEvents f outs), none) := by
  intro ts
  induction ts with
  | nil => intro _; rfl
  | cons t ts ih =>
    intro h
    obtain ⟨evs, hstep⟩ := h t (List.mem_cons_self _ _)
    cases hf : f t with
    | error e => simp [stepResult, hf] at hstep
    | ok d =>
      cases hb : broadcast (ε := ε) outs d with
      | error err => simp [stepResult, hf, hb] at hstep
      | ok evs2 =>
        have hrest := ih fun u hu => h u (List.mem_cons_of_mem _ hu)
        simp [runInGo, hf, hb, hrest, List.flatMap_cons, stepEvents, stepResult]

/-- If every iteration before position k succeeds and iteration k fails, the
consumption loop emits exactly the events of the first k iterations and
stops with the k-th error. -/
theorem runInGo_err {ε : Type} (f : List PyVal → Except ε PyVal) (outs : List String) :
    ∀ (ts1 : List (List PyVal)) (t : List PyVal) (ts2 : List (List PyVal))
      (err : NodeError ε),
      (∀ u ∈ ts1, ∃ evs, stepResult f outs u = .ok evs) →
      stepResult f outs t = .error err →
      runInGo f outs (ts1 ++ t :: ts2) = (ts1.flatMap (stepEvents f outs), some err) := by
  intro ts1
  induction ts1 with
  | nil =>
    intro t ts2 err _ herr
    cases hf : f t with
    | error e =>
      simp only [stepResult, hf] at herr
      cases herr
      simp [runInGo, hf]
    | ok d =>
      cases hb : broadcast (ε := ε) outs d with
      | error err2 =>
        simp only [stepResult, hf, hb] at herr
        cases herr
        simp [runInGo, hf, hb]
      | ok evs => simp [stepResult, hf, hb] at herr
  | cons u ts1 ih =>
    intro t ts2 err h herr
    obtain ⟨evs, hstep⟩ := h u (List.mem_cons_self _ _)
    cases hf : f u with
    | error e => simp [stepResult, hf] at hstep
    | ok d =>
      cases hb : broadcast (ε := ε) outs d with
      | error err2 => simp [stepResult, hf, hb] at hstep
      | ok evs2 =>
        have hrest := ih t ts2 err (fun v hv => h v (List.mem_cons_of_mem _ hv)) herr
        simp [runInGo, hf, hb, hrest, List.flatMap_cons, stepEvents, stepResult]

/-- valuesOn distributes over trace concatenation. -/
theorem valuesOn_append (evs1 evs2 : List Event) (q : String) :
    valuesOn (evs1 ++ evs2) q = valuesOn evs1 q ++ valuesOn evs2 q :=
  List.filterMap_append _ _ _

/-- Close events carry no values. -/
theorem valuesOn_closes (os : List String) (q : String) :
    valuesOn (os.map Event.close) q = [] := by
  induction os with
  | nil => rfl
  | cons o os ih => simp [valuesOn] at ih ⊢

/-- valuesOn distributes over a concatenation of per-item traces. -/
theorem valuesOn_flatMap {β : Type} (ts : List β) (h : β → List Event) (q : String) :
    valuesOn (ts.flatMap h) q = ts.flatMap fun t => valuesOn (h t) q := by
  induction ts with
  | nil => rfl
  | cons t ts ih => simp [List.flatMap_cons, valuesOn_append, ih]

/-- A per-item trace of singletons concatenates to the list of the items. -/
theorem flatMap_eq_map_of_singletons {β γ : Type} :
    ∀ (l : List β) (g1 : β → List γ) (g2 : β → γ),
      (∀ t ∈ l, g1 t = [g2 t]) → l.flatMap g1 = l.map g2 := by
  intro l g1 g2 h
  induction l with
  | nil => rfl
  | cons t ts ih =>
    rw [List.flatMap_cons, h t (List.mem_cons_self _ _),
      ih fun u hu => h u (List.mem_cons_of_mem _ hu)]
    rfl

/-- A multi-output broadcast puts nothing on a channel that is not among the
paired outputs. -/
theorem valuesOn_zip_not_mem (q : String) :
    ∀ (outs : List String) (vs : List PyVal), q ∉ outs →
      valuesOn ((outs.zip vs).map fun p => Event.put p.1 p.2) q = [] := by
  intro outs
  induction outs with
  | nil => intro vs _; rfl
  | cons o outs ih =>
    intro vs hq
    cases vs with
    | nil => rfl
    | cons v vs =>
      have ho : ¬ o = q := fun h => hq (h ▸ List.mem_cons_self _ _)
      have hq2 : q ∉ outs := fun h => hq (List.mem_cons_of_mem _ h)
      simpa [valuesOn, List.zip_cons_cons, ho] using ih vs hq2

/-- With distinct output names and a tuple matching the output count, the
zip pairing puts exactly one value on each declared channel. -/
theorem valuesOn_zip_nodup (q : String) :
    ∀ (outs : List String) (vs : List PyVal), outs.Nodup → q ∈ outs →
      vs.length = outs.length →
      ∃ v, valuesOn ((outs.zip vs).map fun p => Event.put p.1 p.2) q = [v] := by
  intro outs
  induction outs with
  | nil => intro vs _ hq _; cases hq
  | cons o outs ih =>
    intro vs hnd hq hlen
    cases vs with
    | nil => cases hlen
    | cons v vs =>
      have hndt : outs.Nodup := (List.nodup_cons.mp hnd).2
      have hno : o ∉ outs := (List.nodup_cons.mp hnd).1
      by_cases hoq : o = q
      · subst hoq
        refine ⟨v, ?_⟩
        have h0 : valuesOn ((outs.zip vs).map fun p => Event.put p.1 p.2) o = [] :=
          valuesOn_zip_not_mem o outs vs hno
        simpa [valuesOn, List.zip_cons_cons] using h0
      · have hqt : q ∈ outs := by
          cases hq with
          | head => exact absurd rfl hoq
          | tail _ h => exact h
        obtain ⟨v2, hv2⟩ := ih vs hndt hqt (by simpa using hlen)
        exact ⟨v2, by simpa [valuesOn, List.zip_cons_cons, hoq] using hv2⟩

/-- A broadcast of a tuple value never fails: the single-output manager pushes
the tuple whole, the multi-output manager zips it over the channels. -/
theorem broadcast_tup_ok {ε : Type} (outs : List String) (vs : List PyVal) :
    ∃ evs, broadcast (ε := ε) outs (.tup vs) = .ok evs := by
  match outs with
  | [] => exact ⟨_, rfl⟩
  | [o] => exact ⟨_, rfl⟩
  | o1 :: o2 :: os => exact ⟨_, rfl⟩

/-- Every event emitted by a successful broadcast is a put event. -/
theorem broadcast_puts {ε : Type} (outs : List String) (r : PyVal) (evs : List Event)
    (h : broadcast (ε := ε) outs r = .ok evs) :
    ∀ e ∈ evs, ∃ q v, e = Event.put q v := by
  match outs, r with
  | [o], .atom n =>
    cases h
    intro e he
    rw [List.mem_singleton] at he
    exact ⟨o, .atom n, he⟩
  | [o], .tup vs =>
    cases h
    intro e he
    rw [List.mem_singleton] at he
    exact ⟨o, .tup vs, he⟩
  | [], .tup vs =>
    cases h
    intro e he
    obtain ⟨p, _, rfl⟩ := List.mem_map.mp he
    exact ⟨p.1, p.2, rfl⟩
  | o1 :: o2 :: os, .tup vs =>
    cases h
    intro e he
    obtain ⟨p, _, rfl⟩ := List.mem_map.mp he
    exact ⟨p.1, p.2, rfl⟩
  | [], .atom n => cases h
  | o1 :: o2 :: os, .atom n => cases h

/-- Every event emitted by the consumption loop is a put event. -/
theorem runInGo_puts {ε : Type} (f : List PyVal → Except ε PyVal) (outs : List String) :
    ∀ ts : List (List PyVal), ∀ e ∈ (runInGo f outs ts).1, ∃ q v, e = Event.put q v := by
  intro ts
  induction ts with
  | nil => intro e he; cases he
  | cons t ts ih =>
    intro e he
    cases hf : f t with
    | error err => simp [runInGo, hf] at he
    | ok d =>
      cases hb : broadcast (ε := ε) outs d with
      | error err => simp [runInGo, hf, hb] at he
      | ok evs =>
        simp only [runInGo, hf, hb] at he
        rcases List.mem_append.mp he with h1 | h1
        · exact broadcast_puts outs d evs hb e h1
        · exact ih e h1

/-- C2: for every family of N input sequences (N ≥ 0), the Zip-Join driving
the node's consumption loop produces exactly min of the input lengths many
tuples — no more than any input holds, exhausting some input completely, and
the empty family produces nothing — each produced tuple is full (one
component per input) and its i-th component is the next value of the i-th
input; nothing is produced beyond the first exhausted input. -/
theorem azip_zip_join_spec {α : Type} (ls : List (List α)) :
    (azip ([] : List (List α)) = []) ∧
    (∀ t ∈ azip ls, t.length = ls.length) ∧
    (∀ s ∈ ls, (azip ls).length ≤ s.length) ∧
    (ls ≠ [] → ∃ s ∈ ls, (azip ls).length = s.length) ∧
    (∀ j, j < (azip ls).length → ∀ i, i < ls.length →
      ((azip ls).getD j [])[i]? = (ls.getD i [])[j]?) :=
  ⟨rfl, fun _ ht => azip_mem_length ht, fun _ hs => azip_length_le hs,
    azip_length_attained, fun _ hj _ hi => azip_positional hj hi⟩

/-- C2 witness: on inputs of lengths 3 and 4, the element at row 1, column 0
of the join is the second value of the first input. -/
theorem azip_zip_join_spec_witness :
    ((azip [[1, 2, 3], [10, 20, 30, 40]]).getD 1 [])[0]? =
      (([[1, 2, 3], [10, 20, 30, 40]] : List (List Nat)).getD 0 [])[1]? :=
  (azip_zip_join_spec [[1, 2, 3], [10, 20, 30, 40]]).2.2.2.2 1 (by decide) 0 (by decide)

/-- C3: whenever run() of a node with a nonempty declared output list
completes — normally or with an escaping error — its trace ends with one
close event per declared output, in the reverse of the declared order, and
nothing before them is a close event (so every output channel is closed,
last declared output first). -/
theorem nodeRun_closing_order {ε : Type} (f : List PyVal → Except ε PyVal)
    (ins : List (List PyVal)) (o : String) (os : List String) :
    ∃ evs, (nodeRun f ins (o :: os)).1 = evs ++ ((o :: os).reverse.map Event.close) ∧
      ∀ e ∈ evs, ∃ q v, e = Event.put q v := by
  refine ⟨(runInGo f (o :: os) (azip ins)).1, ?_, runInGo_puts f (o :: os) (azip ins)⟩
  show (withOutGo (runInGo f (o :: os) (azip ins)) o os).1 = _
  rw [withOutGo_eq]

/-- C3 witness: a concrete zero-input node with outputs [a, b, c] produces
exactly the three close events, c first, then b, then a. -/
theorem nodeRun_closing_order_witness :
    (nodeRun (ε := Unit) (fun _ => .ok (.atom 1)) [] ["a", "b", "c"]).1 =
      [Event.close "c", Event.close "b", Event.close "a"] := by
  obtain ⟨evs, heq, hput⟩ :=
    nodeRun_closing_order (ε := Unit) (fun _ => .ok (.atom 1)) [] "a" ["b", "c"]
  exact rfl

/-- C7: a node with zero declared inputs performs zero join iterations — the
Zip-Join of no inputs is empty, so for every transformation nothing is
invoked and nothing is pushed — and its run only closes the declared outputs
in reverse declared order, without error. -/
theorem nodeRun_zero_inputs {ε : Type} (f : List PyVal → Except ε PyVal)
    (o : String) (os : List String) :
    azip ([] : List (List PyVal)) = [] ∧
    nodeRun f [] (o :: os) = ((o :: os).reverse.map Event.close, none) := by
  refine ⟨rfl, ?_⟩
  show withOutGo (runInGo f (o :: os) (azip [])) o os = _
  rw [withOutGo_eq]
  rfl

/-- C8: a node declared with an empty output list still constructs (the
output mapping is built from no names, so only the declared inputs must be
present in the kwargs), but run() fails with a TypeError — _with_out is
called with no positional argument — for every transformation and every
inputs, before any value is consumed, produced or closed. -/
theorem nodeRun_empty_outputs {Q ε : Type} (f : List PyVal → Except ε PyVal)
    (ins : List (List PyVal)) (inputs : List String) (kwargs : List (String × Q))
    (ms : List (String × Q)) (hin : lookupAll inputs kwargs = some ms) :
    initNode inputs [] kwargs = .ok (ms, []) ∧
    nodeRun f ins [] = ([], some NodeError.typeError) := by
  constructor
  · simp [initNode, hin, lookupAll]
  · rfl

/-- C8 witness: a concrete node with one input and no outputs constructs and
fails its run with a TypeError. -/
theorem nodeRun_empty_outputs_witness :
    initNode ["x"] [] [("x", (0 : Nat))] = .ok ([("x", 0)], []) ∧
    nodeRun (ε := Unit) (fun _ => .ok (.atom 0)) [[.atom 1]] [] =
      ([], some NodeError.typeError) :=
  nodeRun_empty_outputs (fun _ => .ok (.atom 0)) [[.atom 1]] ["x"]
    [("x", (0 : Nat))] [("x", 0)] rfl

/-- C9: with exactly one declared output the node uses the single-output
manager: every produced value — a tuple of any length included — is pushed
unchanged as one item onto the one output channel, with no element-wise
fan-out and no arity check, and that one value is what the channel
receives. -/
theorem broadcast_single_output {ε : Type} (o : String) (r : PyVal) :
    broadcast (ε := ε) [o] r = .ok [Event.put o r] ∧
    valuesOn [Event.put o r] o = [r] := by
  constructor
  · cases r with
    | atom n => rfl
    | tup vs => rfl
  · simp [valuesOn]

/-- C4: if the transformation succeeds (and its result broadcasts) on the
first j join tuples and raises on the (j+1)-th, the node's run emits exactly
the broadcast events of the first j tuples — every earlier value is already
pushed downstream — then closes every output channel in reverse declared
order, and surfaces the transformation error uncaught to the caller. -/
theorem nodeRun_error_propagation {ε : Type} (f : List PyVal → Except ε PyVal)
    (ins : List (List PyVal)) (o : String) (os : List String) (j : Nat) (e : ε)
    (hj : j < (azip ins).length)
    (hok : ∀ t ∈ (azip ins).take j, ∃ evs, stepResult f (o :: os) t = .ok evs)
    (herr : f ((azip ins).getD j []) = .error e) :
    nodeRun f ins (o :: os) =
      (((azip ins).take j).flatMap (stepEvents f (o :: os)) ++
        ((o :: os).reverse.map Event.close),
       some (NodeError.transform e)) := by
  have hstep : stepResult f (o :: os) ((azip ins).getD j []) = .error (.transform e) := by
    simp only [stepResult, herr]
  have hsplit : azip ins =
      (azip ins).take j ++ ((azip ins).getD j []) :: (azip ins).drop (j + 1) := by
    conv_lhs => rw [← List.take_append_drop j (azip ins)]
    rw [List.drop_eq_getElem_cons hj, List.getD_eq_getElem _ _ hj]
  have hrun : runInGo f (o :: os) (azip ins) =
      (((azip ins).take j).flatMap (stepEvents f (o :: os)), some (.transform e)) := by
    conv_lhs => rw [hsplit]
    exact runInGo_err f (o :: os) _ _ _ _ hok hstep
  show withOutGo (runInGo f (o :: os) (azip ins)) o os = _
  rw [hrun, withOutGo_eq]

/-- C4 witness: a transformation that succeeds on the first join tuple and
raises on the second: the first value is pushed, the output is closed, and
the error escapes run(). -/
theorem nodeRun_error_propagation_witness :
    nodeRun (ε := Nat)
      (fun t => match t with
        | [PyVal.atom 1] => .ok (.atom 10)
        | _ => .error 7)
      [[.atom 1, .atom 2]] ["o"] =
      ([Event.put "o" (.atom 10), Event.close "o"], some (NodeError.transform 7)) := by
  have h := nodeRun_error_propagation
    (fun t => match t with
      | [PyVal.atom 1] => .ok (.atom 10)
      | _ => .error 7)
    [[.atom 1, .atom 2]] "o" [] 1 7 (by decide)
    (by
      intro t ht
      have hred : (azip [[PyVal.atom 1, PyVal.atom 2]]).take 1 = [[PyVal.atom 1]] := rfl
      rw [hred, List.mem_singleton] at ht
      subst ht
      exact ⟨[Event.put "o" (.atom 10)], rfl⟩)
    rfl
  exact h

/-- C5: for a node with nonempty, pairwise distinct output names whose
transformation always returns a tuple with exactly one element per declared
output, the run finishes without error and every output channel receives
exactly one value per produced join tuple — the value its broadcast assigns
to that channel — in the order the join tuples were produced. -/
theorem nodeRun_per_channel {ε : Type} (f : List PyVal → Except ε PyVal)
    (ins : List (List PyVal)) (o1 : String) (os : List String)
    (hnd : (o1 :: os).Nodup)
    (hf : ∀ t ∈ azip ins, ∃ vs, f t = .ok (.tup vs) ∧ vs.length = (o1 :: os).length) :
    (nodeRun f ins (o1 :: os)).2 = none ∧
    ∀ o ∈ o1 :: os, ∃ g : List PyVal → PyVal,
      valuesOn (nodeRun f ins (o1 :: os)).1 o = (azip ins).map g ∧
      ∀ t ∈ azip ins, valuesOn (stepEvents f (o1 :: os) t) o = [g t] := by
  have hok : ∀ t ∈ azip ins, ∃ evs, stepResult f (o1 :: os) t = .ok evs := by
    intro t ht
    obtain ⟨vs, hfv, -⟩ := hf t ht
    obtain ⟨evs, hb⟩ := broadcast_tup_ok (ε := ε) (o1 :: os) vs
    exact ⟨evs, by simp [stepResult, hfv, hb]⟩
  have hrun := runInGo_all_ok f (o1 :: os) (azip ins) hok
  have hone : ∀ t ∈ azip ins, ∀ o ∈ o1 :: os,
      ∃ v, valuesOn (stepEvents f (o1 :: os) t) o = [v] := by
    intro t ht o ho
    obtain ⟨vs, hfv, hlen⟩ := hf t ht
    cases os with
    | nil =>
      have hev : stepEvents f [o1] t = [Event.put o1 (.tup vs)] := by
        simp only [stepEvents, stepResult, hfv]
        rfl
      rw [List.mem_singleton] at ho
      subst ho
      rw [hev]
      exact ⟨.tup vs, by simp [valuesOn]⟩
    | cons o2 os2 =>
      have hev : stepEvents f (o1 :: o2 :: os2) t =
          ((o1 :: o2 :: os2).zip vs).map fun p => Event.put p.1 p.2 := by
        simp only [stepEvents, stepResult, hfv]
        rfl
      rw [hev]
      exact valuesOn_zip_nodup o (o1 :: o2 :: os2) vs hnd ho hlen
  have hbody : (nodeRun f ins (o1 :: os)).1 =
      (azip ins).flatMap (stepEvents f (o1 :: os)) ++
        ((o1 :: os).reverse.map Event.close) := by
    show (withOutGo (runInGo f (o1 :: os) (azip ins)) o1 os).1 = _
    rw [withOutGo_eq, hrun]
  refine ⟨?_, ?_⟩
  · show (withOutGo (runInGo f (o1 :: os) (azip ins)) o1 os).2 = none
    rw [withOutGo_eq, hrun]
  · intro o ho
    refine ⟨fun t => (valuesOn (stepEvents f (o1 :: os) t) o).headD (.atom 0), ?_, ?_⟩
    · rw [hbody, valuesOn_append, valuesOn_closes, List.append_nil, valuesOn_flatMap]
      refine flatMap_eq_map_of_singletons _ _ _ ?_
      intro t ht
      obtain ⟨v, hv⟩ := hone t ht o ho
      simp only [hv]
      rfl
    · intro t ht
      obtain ⟨v, hv⟩ := hone t ht o ho
      simp only [hv]
      rfl

/-- C5 witness: a two-output node whose transformation returns a matching
pair runs without error. -/
theorem nodeRun_per_channel_witness :
    (nodeRun (ε := Unit) (fun _ => .ok (.tup [.atom 5, .atom 6]))
      [[.atom 1]] ["a", "b"]).2 = none :=
  (nodeRun_per_channel (fun _ => .ok (.tup [.atom 5, .atom 6]))
    [[.atom 1]] "a" ["b"] (by decide)
    (by
      intro t ht
      have hred : azip [[PyVal.atom 1]] = [[PyVal.atom 1]] := rfl
      rw [hred, List.mem_singleton] at ht
      subst ht
      exact ⟨[.atom 5, .atom 6], rfl, rfl⟩)).1

/-- C1 counterexample: a node with 2 declared outputs whose transformation
returns a 3-tuple does NOT fail at the first broadcast: the run completes
with no error, the first two tuple elements are pushed and the third is
silently dropped. -/
theorem nodeRun_arity_counterexample :
    nodeRun (ε := Unit) (fun _ => .ok (.tup [.atom 1, .atom 2, .atom 3]))
      [[.atom 0]] ["a", "b"] =
      ([Event.put "a" (.atom 1), Event.put "b" (.atom 2),
        Event.close "b", Event.close "a"], none) := rfl

/-- C1 amended: for a node with K ≥ 2 declared outputs, broadcasting a tuple
whose length differs from K raises no error at all; the zip pairing pushes
exactly min(K, tuple length) values — positionally the first elements onto
the first channels — silently truncating the rest. -/
theorem broadcast_zip_truncates {ε : Type} (o1 o2 : String) (os : List String)
    (vs : List PyVal) :
    broadcast (ε := ε) (o1 :: o2 :: os) (.tup vs) =
      .ok (((o1 :: o2 :: os).zip vs).map fun p => Event.put p.1 p.2) ∧
    (((o1 :: o2 :: os).zip vs).map fun p => Event.put p.1 p.2).length =
      min (o1 :: o2 :: os).length vs.length := by
  constructor
  · rfl
  · simp [List.length_zip]

/-- If a declared name is absent from the kwargs, the dict comprehension of
the constructor hits a KeyError. -/
theorem lookupAll_eq_none {Q : Type} (names : List String) (kwargs : List (String × Q))
    (k : String) (hk : k ∈ names) (habs : kwargs.lookup k = none) :
    lookupAll names kwargs = none := by
  induction hk with
  | head as => simp [lookupAll, habs]
  | tail b hb ih =>
    cases hl : kwargs.lookup b with
    | none => simp [lookupAll, hl]
    | some v => simp [lookupAll, hl, ih]

/-- C6: if any declared input or output name is missing from the kwargs
mapping supplied to the constructor, construction fails with the
AttributeError-class error and no node is produced. -/
theorem initNode_missing_name {Q : Type} (inputs outputs : List String)
    (kwargs : List (String × Q)) (k : String) (hk : k ∈ inputs ++ outputs)
    (habs : kwargs.lookup k = none) :
    initNode inputs outputs kwargs = .error .attributeError := by
  rcases List.mem_append.mp hk with h | h
  · simp [initNode, lookupAll_eq_none inputs kwargs k h habs]
  · have h2 := lookupAll_eq_none outputs kwargs k h habs
    cases h1 : lookupAll inputs kwargs with
    | none => simp [initNode, h1]
    | some ms => simp [initNode, h1, h2]

/-- C6 witness: a kwargs mapping missing the declared output name "b" makes
construction fail with AttributeError. -/
theorem initNode_missing_name_witness :
    initNode ["a"] ["b"] [("a", (0 : Nat))] = .error .attributeError :=
  initNode_missing_name ["a"] ["b"] [("a", (0 : Nat))] "b" (by decide) (by decide)

/-- When every declared name is present, the dict comprehension succeeds and
returns exactly the declared names, each bound to its kwargs value. -/
theorem lookupAll_eq_some {Q : Type} :
    ∀ (names : List String) (kwargs : List (String × Q)),
      (∀ k ∈ names, (kwargs.lookup k).isSome) →
      ∃ ms, lookupAll names kwargs = some ms ∧ ms.map Prod.fst = names ∧
        ∀ p ∈ ms, kwargs.lookup p.1 = some p.2 := by
  intro names kwargs h
  induction names with
  | nil => exact ⟨[], rfl, rfl, by simp⟩
  | cons n ns ih =>
    obtain ⟨v, hv⟩ := Option.isSome_iff_exists.mp (h n (List.mem_cons_self _ _))
    obtain ⟨ms, hms, hfst, hlk⟩ := ih fun k hk => h k (List.mem_cons_of_mem _ hk)
    refine ⟨(n, v) :: ms, ?_, ?_, ?_⟩
    · simp [lookupAll, hv, hms]
    · simp [hfst]
    · intro p hp
      rcases List.mem_cons.mp hp with rfl | hp
      · exact hv
      · exact hlk p hp

/-- C10: when every declared input and output name is present in the kwargs
mapping, construction succeeds even if the mapping holds additional
undeclared names: the built input and output mappings list exactly the
declared names, each bound to its supplied channel, so the extra entries
appear in neither mapping. -/
theorem initNode_extra_names_ignored {Q : Type} (inputs outputs : List String)
    (kwargs : List (String × Q))
    (h : ∀ k ∈ inputs ++ outputs, (kwargs.lookup k).isSome) :
    ∃ ms os, initNode inputs outputs kwargs = .ok (ms, os) ∧
      ms.map Prod.fst = inputs ∧ os.map Prod.fst = outputs ∧
      (∀ p ∈ ms, kwargs.lookup p.1 = some p.2) ∧
      (∀ p ∈ os, kwargs.lookup p.1 = some p.2) := by
  obtain ⟨ms, hms, hmf, hml⟩ := lookupAll_eq_some inputs kwargs fun k hk =>
    h k (List.mem_append.mpr (Or.inl hk))
  obtain ⟨qs, hqs, hqf, hql⟩ := lookupAll_eq_some outputs kwargs fun k hk =>
    h k (List.mem_append.mpr (Or.inr hk))
  exact ⟨ms, qs, by simp [initNode, hms, hqs], hmf, hqf, hml, hql⟩

/-- C10 witness: with declared input "a" and output "b", a kwargs mapping
with the extra name "extra" still constructs, binding exactly the declared
names. -/
theorem initNode_extra_names_ignored_witness :
    initNode ["a"] ["b"] [("a", (1 : Nat)), ("b", 2), ("extra", 3)] =
      .ok ([("a", 1)], [("b", 2)]) := by
  obtain ⟨ms, os, heq, -, -, -, -⟩ :=
    initNode_extra_names_ignored ["a"] ["b"] [("a", (1 : Nat)), ("b", 2), ("extra", 3)]
      (by decide)
  exact rfl

end Assemply
